import Mathlib

/-!
Shallow embedding of `src/include/swift/ABI/TaskStatus.h` (Swift ABI task
status records).  `AsyncTask *` pointers are modelled as `TaskId := Nat`
(a `TaskId` is always a non-null pointer; `nullptr` is `Option.none`).
The intrusive per-task successor slot `childFragment()->NextChild`
(read by `getNextChild`, written by `setNextChild`) is modelled as an
ambient map `TaskId → Option TaskId`.
-/

set_option autoImplicit false

namespace TaskStatus

abbrev TaskId := Nat

/-- The record kinds used in `TaskStatus.h` (`TaskStatusRecordKind` comes
from the external header `MetadataValues.h`; only the constructors that
`TaskStatus.h` uses are modelled). -/
inductive TaskStatusRecordKind where
  | Deadline
  | ChildTask
  | TaskGroup
  | CancellationNotification
  | EscalationNotification
  | TaskDependency
  deriving DecidableEq, Repr

/-- State of one `TaskGroupTaskStatusRecord` together with the ambient
intrusive successor slots of all tasks:
`FirstChild`/`LastChild` are the two record fields (lines 175-176 of the
source), and `next t` is task `t`'s `childFragment()->getNextChild()`. -/
structure GroupState where
  FirstChild : Option TaskId
  LastChild : Option TaskId
  next : TaskId → Option TaskId

/-- Read of `task->childFragment()->getNextChild()` (source `getNextChildTask`). -/
def getNextChildTask (s : GroupState) (t : TaskId) : Option TaskId :=
  s.next t

/-- Pointwise update of the ambient successor map:
`t->childFragment()->setNextChild(v)`. -/
def setNext (next : TaskId → Option TaskId) (t : TaskId) (v : Option TaskId) :
    TaskId → Option TaskId :=
  fun u => if u = t then v else next u

/-- Write of `t->childFragment()->setNextChild(v)` acting on the whole state. -/
def setNextChild (s : GroupState) (t : TaskId) (v : Option TaskId) : GroupState :=
  { s with next := setNext s.next t v }

/-- Constructor `TaskGroupTaskStatusRecord()` (source lines 179-183): both child
pointers start out null.  The ambient successor slots are whatever they
already were (the record does not own them). -/
def initialGroup (next : TaskId → Option TaskId) : GroupState :=
  { FirstChild := none, LastChild := none, next := next }

/-- Constructor `TaskGroupTaskStatusRecord(AsyncTask *child)` (source lines 185-190):
both pointers are set to `child`; the constructor asserts that the child
has no recorded successor (`assert(!LastChild->...getNextChild())`). -/
def initialGroupWithChild (next : TaskId → Option TaskId) (child : TaskId) :
    GroupState :=
  { FirstChild := some child, LastChild := some child, next := next }

/-- Model of `TaskGroupTaskStatusRecord::attachChild` (source lines 200-214).
The two debug assertions (`child->hasGroupChildFragment()` and the group
identity check) concern the external group-child fragment and are treated
as out-of-scope preconditions.  Returns `none` exactly when the source
would dereference a null `oldLastChild` (the corrupt state `FirstChild`
non-null but `LastChild` null). -/
def attachChild (s : GroupState) (child : TaskId) : Option GroupState :=
  let oldLastChild := s.LastChild
  let s1 := { s with LastChild := some child }
  match s1.FirstChild with
  | none =>
    -- This is the first child we ever attach, so store it as FirstChild.
    some { s1 with FirstChild := some child }
  | some _ =>
    match oldLastChild with
    | none => none
    | some l => some (setNextChild s1 l (some child))

/-- The `while (prev)` scan of `detachChild` (source lines 226-246),
searching for the node whose successor slot equals `child`.  The loop is
given explicit fuel; `none` means the fuel ran out mid-scan, `some none`
means the scan reached the end of the list without a match, and
`some (some prev)` means `prev` is the node with `next prev = some child`. -/
def detachScan (next : TaskId → Option TaskId) (child : TaskId) :
    Nat → Option TaskId → Option (Option TaskId)
  | _, none => some none
  | 0, some _ => none
  | fuel + 1, some prev =>
    if next prev = some child then some (some prev)
    else detachScan next child fuel (next prev)

/-- Model of `TaskGroupTaskStatusRecord::detachChild` (source lines 216-247).
The `assert(child && ...)` is modelled by `child : TaskId` being
inherently non-null.  `none` only when the scan fuel runs out. -/
def detachChild (s : GroupState) (child : TaskId) (fuel : Nat) :
    Option GroupState :=
  if s.FirstChild = some child then
    let newFirst := s.next child
    some { s with FirstChild := newFirst,
                  LastChild := if newFirst = none then none else s.LastChild }
  else
    match detachScan s.next child fuel s.FirstChild with
    | none => none
    | some none => some s
    | some (some prev) =>
      let afterChild := s.next child
      let s1 := setNextChild s prev afterChild
      some (if s.LastChild = some child then { s1 with LastChild := some prev }
            else s1)

/-- The `children()` iterator (source lines 253-256, `LinkedListIterator`
from `getFirstChild()`): follow the successor slots until null, with
explicit fuel; `none` when the fuel is exhausted before the end. -/
def childrenFrom (next : TaskId → Option TaskId) :
    Nat → Option TaskId → Option (List TaskId)
  | _, none => some []
  | 0, some _ => none
  | fuel + 1, some t => (childrenFrom next fuel (next t)).map (t :: ·)

/-- Predicate `isChildList next f L`: following successor slots from the
head pointer `f` enumerates exactly the tasks `L` and then stops (the
last task's slot is null).  This characterises the finite output of the
`children()` iterator. -/
def isChildList (next : TaskId → Option TaskId) :
    Option TaskId → List TaskId → Bool
  | none, [] => true
  | none, _ :: _ => false
  | some _, [] => false
  | some t, c :: rest => t == c && isChildList next (next t) rest

/-- Well-formedness of a group record with abstract child list `L`:
the successor slots link exactly `L` starting at `FirstChild`,
`LastChild` is the final element of `L`, and the children are distinct. -/
def WF (s : GroupState) (L : List TaskId) : Prop :=
  isChildList s.next s.FirstChild L = true ∧
    s.LastChild = L.getLast? ∧ L.Nodup

/-- One call against a `TaskGroupTaskStatusRecord`. -/
inductive GroupOp where
  | attach (child : TaskId)
  | detach (child : TaskId)

/-- Relation `RunValid s pending ever ops s' pending'`: relates a group state `s`
(whose attached-but-not-yet-detached children, in attach order, are
`pending`, and whose ever-attached children are `ever`) to the state
`s'` and pending list `pending'` after executing `ops`.  Preconditions
of the calls: an attached child is not currently attached and its
successor slot is null; a detached child was previously attached. -/
inductive RunValid :
    GroupState → List TaskId → List TaskId → List GroupOp →
      GroupState → List TaskId → Prop where
  | nil {s : GroupState} {pending ever : List TaskId} :
      RunValid s pending ever [] s pending
  | attach {s s1 s2 : GroupState} {pending ever p2 : List TaskId}
      {c : TaskId} {ops : List GroupOp}
      (hfresh : c ∉ pending) (hslot : s.next c = none)
      (hstep : attachChild s c = some s1)
      (hrest : RunValid s1 (pending ++ [c]) (c :: ever) ops s2 p2) :
      RunValid s pending ever (GroupOp.attach c :: ops) s2 p2
  | detach {s s1 s2 : GroupState} {pending ever p2 : List TaskId}
      {c : TaskId} {fuel : Nat} {ops : List GroupOp}
      (hever : c ∈ ever)
      (hstep : detachChild s c fuel = some s1)
      (hrest : RunValid s1 (pending.erase c) ever ops s2 p2) :
      RunValid s pending ever (GroupOp.detach c :: ops) s2 p2

/-! ### ChildTaskStatusRecord (source lines 113-147)

Debug-fatal assertions are modelled by returning `Option`: `none` means
the assertion fired. -/

/-- The fields of a `ChildTaskStatusRecord`: the inherited kind tag and
`FirstChild` (source lines 113-118). -/
structure ChildTaskStatusRecord where
  kind : TaskStatusRecordKind
  FirstChild : TaskId
  deriving DecidableEq, Repr

/-- The one-argument constructor `ChildTaskStatusRecord(AsyncTask *child)`
(source lines 117-118).  It contains no assertion, so it never fails;
the `hasGroupChildFragment` predicate of the child is accepted (and
ignored) to make the construction interface uniform. -/
def mkChildTaskRecord (_hasGroupChildFragment : TaskId → Bool)
    (child : TaskId) : Option ChildTaskStatusRecord :=
  some { kind := TaskStatusRecordKind.ChildTask, FirstChild := child }

/-- The two-argument constructor
`ChildTaskStatusRecord(AsyncTask *child, TaskStatusRecordKind kind)`
(source lines 120-128); it asserts `kind == ChildTask` and
`!child->hasGroupChildFragment()`. -/
def mkChildTaskRecordWithKind (hasGroupChildFragment : TaskId → Bool)
    (child : TaskId) (kind : TaskStatusRecordKind) :
    Option ChildTaskStatusRecord :=
  if kind = TaskStatusRecordKind.ChildTask ∧
      hasGroupChildFragment child = false then
    some { kind := kind, FirstChild := child }
  else
    none

/-! ### TaskDependencyStatusRecord (source lines 325-432) -/

/-- The tagged union of `TaskDependencyStatusRecord`: the `DependencyKind`
enum together with the matching member of the `WaitingOn` union.
Continuations, task groups and actors are opaque handles (`Nat`). -/
inductive Dependency where
  | waitingOnContinuation (continuation : Nat)
  | waitingOnTask (task : TaskId)
  | waitingOnTaskGroup (group : Nat)
  | waitingOnActor (actor : Nat)
  deriving DecidableEq, Repr

/-- Calls into the external runtime primitives made by this subsystem
(`swift_task_escalate`, `swift_actor_escalate`, `swift_retain`,
`swift_release`), recorded as events. -/
inductive ExternalCall where
  | taskEscalate (task : TaskId) (newPriority : Nat)
  | actorEscalate (actor : Nat) (waitingTask : TaskId) (newPriority : Nat)
  | retain (task : TaskId)
  | release (task : TaskId)
  deriving DecidableEq, Repr

/-- Model of `TaskDependencyStatusRecord::performEscalationAction` (source lines
402-431), returning the list of external calls it performs.  In the
`WaitingOnActor` case the source passes an identifier `task` that is not
declared in the method or the class; per the surrounding comments it
denotes the currently-waiting task, so it is modelled as the explicit
parameter `task`. -/
def performEscalationAction (dep : Dependency) (task : TaskId)
    (newPriority : Nat) : List ExternalCall :=
  match dep with
  | Dependency.waitingOnContinuation _ =>
    -- We can't do anything here
    []
  | Dependency.waitingOnTaskGroup _ =>
    -- Shortcircuit: the task also has a TaskGroupTaskStatusRecord which
    -- handles the escalation logic for the task group.
    []
  | Dependency.waitingOnTask t =>
    [ExternalCall.taskEscalate t newPriority]
  | Dependency.waitingOnActor a =>
    [ExternalCall.actorEscalate a task newPriority]

/-- Constructor `TaskDependencyStatusRecord(ContinuationAsyncContext *)` (source lines
376-380): stores the continuation; no reference-count traffic. -/
def mkDependencyRecordContinuation (continuation : Nat) :
    Dependency × List ExternalCall :=
  (Dependency.waitingOnContinuation continuation, [])

/-- Constructor `TaskDependencyStatusRecord(AsyncTask *task)` (source lines 382-388):
`swift_retain(task)` then stores the task. -/
def mkDependencyRecordTask (task : TaskId) :
    Dependency × List ExternalCall :=
  (Dependency.waitingOnTask task, [ExternalCall.retain task])

/-- Constructor `TaskDependencyStatusRecord(TaskGroup *)` (source lines 390-394):
stores the group; no reference-count traffic. -/
def mkDependencyRecordTaskGroup (group : Nat) :
    Dependency × List ExternalCall :=
  (Dependency.waitingOnTaskGroup group, [])

/-- Constructor `TaskDependencyStatusRecord(DefaultActor *)` (source lines 396-400):
stores the actor; no reference-count traffic. -/
def mkDependencyRecordActor (actor : Nat) :
    Dependency × List ExternalCall :=
  (Dependency.waitingOnActor actor, [])

/-- Modelled from the spec: the code removing a
`TaskDependencyStatusRecord` from the active task status is not under
`src/`; the source comment at line 385 ("Released when this record is
removed from the active task status") and the spec state that
unregistration releases the waiting-on-task reference and touches no
reference count in the other three variants. -/
def unregisterDependencyRecord : Dependency → List ExternalCall
  | Dependency.waitingOnTask t => [ExternalCall.release t]
  | _ => []

/-! ### TaskStatusRecord base class (source lines 40-77) -/

/-- The kind-specific payload of each record variant, used to state frame
properties of the base-class operations. -/
inductive RecordPayload where
  | deadline (value : Nat)
  | childTask (firstChild : TaskId)
  | taskGroup (firstChild lastChild : Option TaskId)
  | cancellationNotification (function argument : Nat)
  | escalationNotification (function argument : Nat)
  | taskDependency (dep : Dependency)
  deriving DecidableEq, Repr

/-- A status record object: the base-class fields `Flags` (holding the
kind fixed at construction, source line 42) and `Parent` (line 43),
together with the variant payload of the concrete subclass. -/
structure StatusRecordObj where
  Flags : TaskStatusRecordKind
  Parent : Option Nat
  payload : RecordPayload
  deriving DecidableEq, Repr

/-- Model of `TaskStatusRecord::getKind` (source line 54). -/
def getKind (r : StatusRecordObj) : TaskStatusRecordKind :=
  r.Flags

/-- Model of `TaskStatusRecord::getParent` (source line 56). -/
def getParent (r : StatusRecordObj) : Option Nat :=
  r.Parent

/-- Model of `TaskStatusRecord::resetParent` (source lines 66-69):
`Parent = newParent;` and nothing else (the `TODO: cache` comment is
unimplemented). -/
def resetParent (r : StatusRecordObj) (newParent : Option Nat) :
    StatusRecordObj :=
  { r with Parent := newParent }

/-! ### Helper lemmas about the intrusive child list -/

theorem isChildList_nil_iff {next : TaskId → Option TaskId} {f : Option TaskId} :
    isChildList next f [] = true ↔ f = none := by
  cases f <;> simp [isChildList]

theorem isChildList_cons_iff {next : TaskId → Option TaskId} {f : Option TaskId}
    {c : TaskId} {rest : List TaskId} :
    isChildList next f (c :: rest) = true ↔
      f = some c ∧ isChildList next (next c) rest = true := by
  cases f with
  | none => simp [isChildList]
  | some t =>
    simp only [isChildList, Bool.and_eq_true, beq_iff_eq, Option.some_inj]
    constructor
    · rintro ⟨rfl, h⟩; exact ⟨rfl, h⟩
    · rintro ⟨rfl, h⟩; exact ⟨rfl, h⟩

theorem isChildList_none_iff {next : TaskId → Option TaskId} {f : Option TaskId}
    {L : List TaskId} (h : isChildList next f L = true) :
    f = none ↔ L = [] := by
  cases L with
  | nil => simp [isChildList_nil_iff.mp h]
  | cons c rest =>
    obtain ⟨rfl, -⟩ := isChildList_cons_iff.mp h
    simp

theorem isChildList_setNext_not_mem {next : TaskId → Option TaskId}
    {p : TaskId} {v : Option TaskId} :
    ∀ {M : List TaskId} {g : Option TaskId}, p ∉ M →
      isChildList next g M = true →
      isChildList (setNext next p v) g M = true := by
  intro M
  induction M with
  | nil =>
    intro g _ h
    rw [isChildList_nil_iff] at h ⊢
    exact h
  | cons m rest ih =>
    intro g hp h
    obtain ⟨rfl, h2⟩ := isChildList_cons_iff.mp h
    refine isChildList_cons_iff.mpr ⟨rfl, ?_⟩
    have hm : m ≠ p := fun e => hp (by simp [e])
    rw [show setNext next p v m = next m by simp [setNext, hm]]
    exact ih (fun hmem => hp (List.mem_cons_of_mem _ hmem)) h2

theorem isChildList_snoc {next : TaskId → Option TaskId} {c : TaskId}
    (hc : next c = none) :
    ∀ {L : List TaskId} {z : TaskId} {f : Option TaskId},
      isChildList next f (L ++ [z]) = true → (L ++ [z]).Nodup →
      c ∉ L ++ [z] →
      isChildList (setNext next z (some c)) f (L ++ [z] ++ [c]) = true := by
  intro L
  induction L with
  | nil =>
    intro z f h _ hcz
    obtain ⟨rfl, h2⟩ := isChildList_cons_iff.mp h
    rw [isChildList_nil_iff] at h2
    refine isChildList_cons_iff.mpr ⟨rfl, ?_⟩
    rw [show setNext next z (some c) z = some c by simp [setNext]]
    refine isChildList_cons_iff.mpr ⟨rfl, ?_⟩
    have hcz' : c ≠ z := by simpa using hcz
    rw [show setNext next z (some c) c = next c by simp [setNext, hcz'], hc,
      isChildList_nil_iff]
  | cons a L ih =>
    intro z f h hnd hcm
    obtain ⟨rfl, h2⟩ := isChildList_cons_iff.mp h
    obtain ⟨ha, hnd2⟩ := List.nodup_cons.mp hnd
    refine isChildList_cons_iff.mpr ⟨rfl, ?_⟩
    have haz : a ≠ z := fun e => ha (by simp [e])
    rw [show setNext next z (some c) a = next a by simp [setNext, haz]]
    exact ih h2 hnd2 (fun hmem => hcm (List.mem_cons_of_mem _ hmem))

theorem childrenFrom_eq_of_isChildList {next : TaskId → Option TaskId} :
    ∀ {L : List TaskId} {f : Option TaskId} {fuel : Nat},
      isChildList next f L = true → L.length ≤ fuel →
      childrenFrom next fuel f = some L := by
  intro L
  induction L with
  | nil =>
    intro f fuel h _
    rw [isChildList_nil_iff.mp h]
    cases fuel <;> rfl
  | cons c rest ih =>
    intro f fuel h hfuel
    obtain ⟨rfl, h2⟩ := isChildList_cons_iff.mp h
    cases fuel with
    | zero => simp at hfuel
    | succ k =>
      have hr := ih h2 (Nat.le_of_succ_le_succ hfuel)
      simp [childrenFrom, hr]

theorem detachScan_not_mem {next : TaskId → Option TaskId} {c : TaskId} :
    ∀ {L : List TaskId} {f : Option TaskId} {fuel : Nat},
      isChildList next f L = true → c ∉ L →
      (detachScan next c fuel f = none ∨
          detachScan next c fuel f = some none) ∧
        (L.length ≤ fuel → detachScan next c fuel f = some none) := by
  intro L
  induction L with
  | nil =>
    intro f fuel h _
    rw [isChildList_nil_iff.mp h]
    refine ⟨Or.inr ?_, fun _ => ?_⟩ <;> (cases fuel <;> rfl)
  | cons t rest ih =>
    intro f fuel h hcm
    obtain ⟨rfl, h2⟩ := isChildList_cons_iff.mp h
    have hne : next t ≠ some c := by
      cases rest with
      | nil => simp [isChildList_nil_iff.mp h2]
      | cons r rest2 =>
        obtain ⟨hr, -⟩ := isChildList_cons_iff.mp h2
        rw [hr]
        intro e
        exact hcm (by simp [← Option.some_inj.mp e])
    cases fuel with
    | zero =>
      exact ⟨Or.inl rfl, fun hab => by simp at hab⟩
    | succ k =>
      have hstep : detachScan next c (k + 1) (some t) =
          detachScan next c k (next t) := by
        simp [detachScan, hne]
      have := @ih (next t) k h2 (fun hmem => hcm (List.mem_cons_of_mem _ hmem))
      rw [hstep]
      exact ⟨this.1, fun hlen => this.2 (Nat.le_of_succ_le_succ hlen)⟩

theorem detachScan_found {next : TaskId → Option TaskId} {c p : TaskId}
    {L2 : List TaskId} :
    ∀ {L1 : List TaskId} {f : Option TaskId} {fuel : Nat},
      isChildList next f (L1 ++ p :: c :: L2) = true →
      (L1 ++ p :: c :: L2).Nodup →
      (detachScan next c fuel f = none ∨
          detachScan next c fuel f = some (some p)) ∧
        (L1.length + 1 ≤ fuel →
          detachScan next c fuel f = some (some p)) := by
  intro L1
  induction L1 with
  | nil =>
    intro f fuel h _
    obtain ⟨rfl, h2⟩ := isChildList_cons_iff.mp h
    obtain ⟨hp, -⟩ := isChildList_cons_iff.mp h2
    cases fuel with
    | zero => exact ⟨Or.inl rfl, fun hab => by simp at hab⟩
    | succ k =>
      have : detachScan next c (k + 1) (some p) = some (some p) := by
        simp [detachScan, hp]
      exact ⟨Or.inr this, fun _ => this⟩
  | cons a L1 ih =>
    intro f fuel h hnd
    obtain ⟨rfl, h2⟩ := isChildList_cons_iff.mp h
    obtain ⟨ha, hnd2⟩ := List.nodup_cons.mp hnd
    have hne : next a ≠ some c := by
      cases L1 with
      | nil =>
        obtain ⟨hp, -⟩ := isChildList_cons_iff.mp h2
        obtain ⟨hp2, -⟩ := List.nodup_cons.mp hnd2
        rw [hp]
        intro e
        exact hp2 (by simp [Option.some_inj.mp e])
      | cons b L1 =>
        obtain ⟨hb, -⟩ := isChildList_cons_iff.mp h2
        obtain ⟨hb2, -⟩ := List.nodup_cons.mp hnd2
        rw [hb]
        intro e
        exact hb2 (by simp [← Option.some_inj.mp e])
    cases fuel with
    | zero => exact ⟨Or.inl rfl, fun hab => by simp at hab⟩
    | succ k =>
      have hstep : detachScan next c (k + 1) (some a) =
          detachScan next c k (next a) := by
        simp [detachScan, hne]
      have := @ih (next a) k h2 hnd2
      rw [hstep]
      exact ⟨this.1, fun hlen => this.2 (Nat.le_of_succ_le_succ hlen)⟩

theorem isChildList_splice {next : TaskId → Option TaskId} {c p : TaskId}
    {L2 : List TaskId} :
    ∀ {L1 : List TaskId} {f : Option TaskId},
      isChildList next f (L1 ++ p :: c :: L2) = true →
      (L1 ++ p :: c :: L2).Nodup →
      isChildList (setNext next p (next c)) f (L1 ++ p :: L2) = true := by
  intro L1
  induction L1 with
  | nil =>
    intro f h hnd
    obtain ⟨rfl, h2⟩ := isChildList_cons_iff.mp h
    obtain ⟨-, hnd2⟩ := List.nodup_cons.mp hnd
    obtain ⟨-, h3⟩ := isChildList_cons_iff.mp h2
    obtain ⟨hcL2, -⟩ := List.nodup_cons.mp hnd2
    refine isChildList_cons_iff.mpr ⟨rfl, ?_⟩
    rw [show setNext next p (next c) p = next c by simp [setNext]]
    have hpL2 : p ∉ L2 := by
      obtain ⟨hp, -⟩ := List.nodup_cons.mp hnd
      exact fun hmem => hp (by simp [hmem])
    exact isChildList_setNext_not_mem hpL2 h3
  | cons a L1 ih =>
    intro f h hnd
    obtain ⟨rfl, h2⟩ := isChildList_cons_iff.mp h
    obtain ⟨ha, hnd2⟩ := List.nodup_cons.mp hnd
    refine isChildList_cons_iff.mpr ⟨rfl, ?_⟩
    have hap : a ≠ p := fun e => ha (by simp [e])
    rw [show setNext next p (next c) a = next a by simp [setNext, hap]]
    exact ih h2 hnd2

/-! ### Exact behaviour of attachChild and detachChild -/

theorem attachChild_eq_of_first_none {s : GroupState} {c : TaskId}
    (h : s.FirstChild = none) :
    attachChild s c =
      some { s with FirstChild := some c, LastChild := some c } := by
  simp [attachChild, h]

theorem attachChild_eq_of_first_some {s : GroupState} {c l : TaskId}
    (hf : s.FirstChild ≠ none) (hl : s.LastChild = some l) :
    attachChild s c =
      some { FirstChild := s.FirstChild, LastChild := some c,
             next := setNext s.next l (some c) } := by
  obtain ⟨f, hf'⟩ := Option.ne_none_iff_exists'.mp hf
  simp [attachChild, hf', hl, setNextChild]

theorem detachChild_eq_of_first {s : GroupState} {c : TaskId} {fuel : Nat}
    (h : s.FirstChild = some c) :
    detachChild s c fuel =
      some { s with FirstChild := s.next c,
                    LastChild :=
                      if s.next c = none then none else s.LastChild } := by
  simp [detachChild, h]

theorem detachChild_eq_of_scan_found {s : GroupState} {c p : TaskId}
    {fuel : Nat} (hf : s.FirstChild ≠ some c)
    (hscan : detachScan s.next c fuel s.FirstChild = some (some p)) :
    detachChild s c fuel =
      some { FirstChild := s.FirstChild,
             LastChild :=
               if s.LastChild = some c then some p else s.LastChild,
             next := setNext s.next p (s.next c) } := by
  by_cases hL : s.LastChild = some c <;>
    simp [detachChild, hf, hscan, hL, setNextChild]

theorem detachChild_eq_of_scan_end {s : GroupState} {c : TaskId}
    {fuel : Nat} (hf : s.FirstChild ≠ some c)
    (hscan : detachScan s.next c fuel s.FirstChild = some none) :
    detachChild s c fuel = some s := by
  simp [detachChild, hf, hscan]

theorem nodup_snoc {X : List TaskId} {c : TaskId} (h1 : X.Nodup)
    (h2 : c ∉ X) : (X ++ [c]).Nodup := by
  rw [List.nodup_append]
  refine ⟨h1, List.nodup_singleton c, ?_⟩
  intro a ha1 ha2
  rcases List.mem_singleton.mp ha2 with rfl
  exact h2 ha1

theorem next_of_pred {next : TaskId → Option TaskId} {p c : TaskId}
    {L2 : List TaskId} :
    ∀ {L1 : List TaskId} {f : Option TaskId},
      isChildList next f (L1 ++ p :: c :: L2) = true → next p = some c := by
  intro L1
  induction L1 with
  | nil =>
    intro f h
    obtain ⟨-, h2⟩ := isChildList_cons_iff.mp h
    exact (isChildList_cons_iff.mp h2).1
  | cons a L1 ih =>
    intro f h
    obtain ⟨-, h2⟩ := isChildList_cons_iff.mp h
    exact ih h2

/-- Structural facts packaged from `Nodup (L1 ++ p :: c :: L2)`. -/
theorem nodup_middle_facts {L1 L2 : List TaskId} {p c : TaskId}
    (hnd : (L1 ++ p :: c :: L2).Nodup) :
    p ≠ c ∧ c ∉ L1 ∧ c ∉ L2 ∧ (L1 ++ p :: L2).Nodup := by
  rw [List.nodup_append] at hnd
  obtain ⟨hnd1, hnd2, hdisj⟩ := hnd
  obtain ⟨hp, hnd3⟩ := List.nodup_cons.mp hnd2
  obtain ⟨hc, hnd4⟩ := List.nodup_cons.mp hnd3
  refine ⟨fun e => hp (by simp [e]), ?_, hc, ?_⟩
  · exact fun hmem => hdisj hmem (by simp)
  · rw [List.nodup_append]
    refine ⟨hnd1, List.nodup_cons.mpr ⟨?_, hnd4⟩, ?_⟩
    · exact fun hmem => hp (List.mem_cons_of_mem _ hmem)
    · intro a ha1 ha2
      refine hdisj ha1 ?_
      rcases List.mem_cons.mp ha2 with rfl | hmem
      · simp
      · simp [List.mem_cons_of_mem, hmem]

theorem first_ne_some_of_middle {s : GroupState} {L1 L2 : List TaskId}
    {p c : TaskId}
    (hcl : isChildList s.next s.FirstChild (L1 ++ p :: c :: L2) = true)
    (hnd : (L1 ++ p :: c :: L2).Nodup) :
    s.FirstChild ≠ some c := by
  cases L1 with
  | nil =>
    obtain ⟨hf, -⟩ := isChildList_cons_iff.mp hcl
    obtain ⟨hpc, -, -, -⟩ := nodup_middle_facts hnd
    rw [hf]
    exact fun e => hpc (Option.some_inj.mp e)
  | cons a L1 =>
    obtain ⟨hf, -⟩ := isChildList_cons_iff.mp hcl
    have hac : a ≠ c := by
      obtain ⟨ha, -⟩ := List.nodup_cons.mp hnd
      exact fun e => ha (by simp [e])
    rw [hf]
    exact fun e => hac (Option.some_inj.mp e)

/-- Behaviour of `detachChild` on an interior or last child: the scan finds the
predecessor `p` and splices; the record's well-formed abstract list
loses exactly `c`. -/
theorem detachChild_found_spec {s : GroupState} {L1 L2 : List TaskId}
    {p c : TaskId} {fuel : Nat}
    (hWF : WF s (L1 ++ p :: c :: L2)) (hfuel : L1.length + 1 ≤ fuel) :
    s.next p = some c ∧
      detachChild s c fuel =
        some { FirstChild := s.FirstChild,
               LastChild :=
                 if s.LastChild = some c then some p else s.LastChild,
               next := setNext s.next p (s.next c) } := by
  obtain ⟨hcl, hlast, hnd⟩ := hWF
  have hf := first_ne_some_of_middle hcl hnd
  have hscan := (detachScan_found hcl hnd).2 hfuel
  exact ⟨next_of_pred hcl, detachChild_eq_of_scan_found hf hscan⟩

/-- WF is preserved by any successful `detachChild`, the abstract list
losing exactly (the first occurrence of) `c`. -/
theorem detachChild_WF {s s1 : GroupState} {L : List TaskId} {c : TaskId}
    {fuel : Nat} (hWF : WF s L) (h : detachChild s c fuel = some s1) :
    WF s1 (L.erase c) := by
  obtain ⟨hcl, hlast, hnd⟩ := hWF
  by_cases hf : s.FirstChild = some c
  · -- head case: L = c :: rest
    obtain ⟨rest, rfl⟩ : ∃ rest, L = c :: rest := by
      cases L with
      | nil => rw [isChildList_nil_iff] at hcl; simp [hcl] at hf
      | cons a rest =>
        obtain ⟨ha, -⟩ := isChildList_cons_iff.mp hcl
        rw [ha] at hf
        exact ⟨rest, by rw [Option.some_inj.mp hf.symm]⟩
    rw [detachChild_eq_of_first hf] at h
    obtain ⟨-, h2⟩ := isChildList_cons_iff.mp hcl
    rw [List.erase_cons_head]
    cases rest with
    | nil =>
      rw [isChildList_nil_iff] at h2
      cases Option.some_inj.mp h.symm
      exact ⟨by simp [h2, isChildList_nil_iff], by simp [h2], List.nodup_nil⟩
    | cons r rest2 =>
      obtain ⟨hr, -⟩ := isChildList_cons_iff.mp h2
      cases Option.some_inj.mp h.symm
      refine ⟨by simpa [hr] using h2, ?_, (List.nodup_cons.mp hnd).2⟩
      simp only [hr]
      rw [hlast, List.getLast?_cons_cons]
      simp
  · by_cases hm : c ∈ L
    · -- interior or last: decompose L = L1 ++ p :: c :: L2
      obtain ⟨s0, t0, rfl⟩ := List.append_of_mem hm
      obtain ⟨L1, p, rfl⟩ : ∃ L1 p, s0 = L1 ++ [p] := by
        rcases s0.eq_nil_or_concat with rfl | ⟨L1, p, hcc⟩
        · obtain ⟨ha, -⟩ := isChildList_cons_iff.mp hcl
          exact absurd ha hf
        · exact ⟨L1, p, by rw [hcc, List.concat_eq_append]⟩
      rw [List.append_assoc, List.singleton_append] at hcl hlast hnd ⊢
      rcases (@detachScan_found s.next c p t0 L1 s.FirstChild fuel hcl
          hnd).1 with hscan | hscan
      · rw [detachChild] at h
        simp [hf, hscan] at h
      · rw [detachChild_eq_of_scan_found hf hscan] at h
        cases Option.some_inj.mp h.symm
        obtain ⟨hpc, hc1, hc2, hnd'⟩ := nodup_middle_facts hnd
        have herase : (L1 ++ p :: c :: t0).erase c = L1 ++ p :: t0 := by
          rw [List.erase_append_right _ hc1,
            List.erase_cons_tail (by simp [hpc]), List.erase_cons_head]
        rw [herase]
        refine ⟨isChildList_splice hcl hnd, ?_, hnd'⟩
        cases t0 with
        | nil =>
          have : s.LastChild = some c := by
            rw [hlast, List.getLast?_append_cons, List.getLast?_cons_cons]
            rfl
          simp only [this, if_pos rfl]
          rw [List.getLast?_append_cons]
          rfl
        | cons d t1 =>
          have hlast2 : s.LastChild = (d :: t1).getLast? := by
            rw [hlast, List.getLast?_append_cons, List.getLast?_cons_cons,
              List.getLast?_cons_cons]
          have hne : s.LastChild ≠ some c := by
            rw [hlast2]
            intro e
            exact hc2 (List.mem_of_getLast?_eq_some e)
          simp only [if_neg hne]
          rw [hlast2, List.getLast?_append_cons, List.getLast?_cons_cons]
    · -- not present: scan to the end, state unchanged
      rcases (@detachScan_not_mem s.next c L s.FirstChild fuel hcl hm).1
        with hscan | hscan
      · rw [detachChild] at h
        simp [hf, hscan] at h
      · rw [detachChild_eq_of_scan_end hf hscan] at h
        cases Option.some_inj.mp h.symm
        rw [List.erase_of_not_mem hm]
        exact ⟨hcl, hlast, hnd⟩

/-- WF is preserved by `attachChild` of a fresh child with a null
successor slot; the abstract list gains `c` at the tail. -/
theorem attachChild_WF {s : GroupState} {L : List TaskId} {c : TaskId}
    (hWF : WF s L) (hfresh : c ∉ L) (hslot : s.next c = none) :
    ∃ s1, attachChild s c = some s1 ∧ WF s1 (L ++ [c]) := by
  obtain ⟨hcl, hlast, hnd⟩ := hWF
  rcases L.eq_nil_or_concat with rfl | ⟨L', z, hcc⟩
  · rw [isChildList_nil_iff] at hcl
    refine ⟨_, attachChild_eq_of_first_none hcl, ?_, by simp, by simp⟩
    simp only [List.nil_append]
    exact isChildList_cons_iff.mpr ⟨rfl, by simp [hslot, isChildList_nil_iff]⟩
  · subst hcc
    rw [List.concat_eq_append] at hcl hlast hnd hfresh ⊢
    have hf : s.FirstChild ≠ none := by
      intro e
      have := (isChildList_none_iff hcl).mp e
      simp at this
    have hl : s.LastChild = some z := by rw [hlast, List.getLast?_concat]
    refine ⟨_, attachChild_eq_of_first_some hf hl, ?_, ?_, ?_⟩
    · exact isChildList_snoc hslot hcl hnd hfresh
    · rw [List.getLast?_concat]
    · exact nodup_snoc hnd hfresh

/-- Any valid run preserves the record's well-formedness, with the
abstract list tracking the attached-but-not-yet-detached children in
attach order. -/
theorem runValid_WF {s s2 : GroupState} {pending ever p2 : List TaskId}
    {ops : List GroupOp}
    (hrun : RunValid s pending ever ops s2 p2) (hWF : WF s pending) :
    WF s2 p2 := by
  induction hrun with
  | nil => exact hWF
  | attach hfresh hslot hstep hrest ih =>
    obtain ⟨s1', heq, hWF1⟩ := attachChild_WF hWF hfresh hslot
    rw [hstep] at heq
    cases Option.some_inj.mp heq
    exact ih hWF1
  | detach hever hstep hrest ih =>
    exact ih (detachChild_WF hWF hstep)

theorem initialGroup_WF (next0 : TaskId → Option TaskId) :
    WF (initialGroup next0) [] :=
  ⟨by simp [initialGroup, isChildList], by simp [initialGroup],
    List.nodup_nil⟩

theorem initialGroupWithChild_WF {next0 : TaskId → Option TaskId}
    {child : TaskId} (h : next0 child = none) :
    WF (initialGroupWithChild next0 child) [child] := by
  refine ⟨?_, by simp [initialGroupWithChild], by simp⟩
  exact isChildList_cons_iff.mpr
    ⟨rfl, by simp [initialGroupWithChild, h, isChildList_nil_iff]⟩

/-! ### Claim theorems -/

/-- C1: for every sequence of `attachChild`/`detachChild` calls on a
`TaskGroupTaskStatusRecord` starting from the empty record (each detached
child previously attached; each attached child not currently attached and
with a null successor slot), the sequence produced by `children()` equals
exactly the attached-but-not-yet-detached children, in original attach
order. -/
theorem children_eq_pending_after_valid_ops
    {next0 : TaskId → Option TaskId} {ops : List GroupOp} {s : GroupState}
    {pending : List TaskId}
    (hrun : RunValid (initialGroup next0) [] [] ops s pending)
    {fuel : Nat} (hfuel : pending.length ≤ fuel) :
    childrenFrom s.next fuel s.FirstChild = some pending := by
  have hWF := runValid_WF hrun (initialGroup_WF next0)
  exact childrenFrom_eq_of_isChildList hWF.1 hfuel

theorem children_eq_pending_after_valid_ops_witness :
    childrenFrom (fun _ => none) 1 (some 1) = some [1] :=
  @children_eq_pending_after_valid_ops (fun _ => none) [GroupOp.attach 1]
    ⟨some 1, some 1, fun _ => none⟩ [1]
    (RunValid.attach (by simp) rfl rfl RunValid.nil) 1 (by simp)

/-- C7: every group record reachable from a constructor by a valid
sequence of `attachChild`/`detachChild` calls satisfies: `FirstChild` is
null iff `LastChild` is null, and both are null exactly when the child
list is empty. -/
theorem group_first_none_iff_last_none {s0 : GroupState}
    {L0 ever0 : List TaskId} {ops : List GroupOp} {s : GroupState}
    {pending : List TaskId}
    (hinit :
      (∃ next0, s0 = initialGroup next0 ∧ L0 = []) ∨
        (∃ next0 child, s0 = initialGroupWithChild next0 child ∧
          next0 child = none ∧ L0 = [child]))
    (hrun : RunValid s0 L0 ever0 ops s pending) :
    (s.FirstChild = none ↔ s.LastChild = none) ∧
      (s.FirstChild = none ↔ pending = []) := by
  have hWF0 : WF s0 L0 := by
    rcases hinit with ⟨next0, rfl, rfl⟩ | ⟨next0, child, rfl, hn, rfl⟩
    · exact initialGroup_WF next0
    · exact initialGroupWithChild_WF hn
  obtain ⟨hcl, hlast, -⟩ := runValid_WF hrun hWF0
  have h1 := isChildList_none_iff hcl
  constructor
  · rw [h1, hlast, List.getLast?_eq_none_iff]
  · exact h1

theorem group_first_none_iff_last_none_witness :
    ((some 2 : Option TaskId) = none ↔ (some 2 : Option TaskId) = none) ∧
      ((some 2 : Option TaskId) = none ↔ ([2] : List TaskId) = []) :=
  @group_first_none_iff_last_none (initialGroup (fun _ => none)) [] []
    [GroupOp.attach 1, GroupOp.attach 2, GroupOp.detach 1]
    ⟨some 2, some 2, fun u => if u = 1 then some 2 else none⟩ [2]
    (Or.inl ⟨fun _ => none, rfl, rfl⟩)
    (RunValid.attach (by simp) rfl rfl
      (RunValid.attach (by simp) rfl rfl
        (@RunValid.detach ⟨some 1, some 2,
            setNext (fun _ => none) 1 (some 2)⟩
          ⟨some 2, some 2, setNext (fun _ => none) 1 (some 2)⟩
          ⟨some 2, some 2, setNext (fun _ => none) 1 (some 2)⟩
          [1, 2] [2, 1] [2] 1 1 [] (by simp) rfl RunValid.nil)))

/-- C3: on a well-formed record containing `child`, `detachChild` either
advances `FirstChild` (clearing `LastChild` when the list empties) when
`child` is the head, or finds the node `p` whose successor equals `child`,
redirects `p`'s successor to `child`'s successor, and moves `LastChild`
back to `p` when `child` was last. -/
theorem detachChild_algorithm (s : GroupState) (L : List TaskId)
    (child : TaskId) (fuel : Nat) (hWF : WF s L)
    (hfuel : L.length ≤ fuel) :
    (s.FirstChild = some child →
      detachChild s child fuel =
        some { s with FirstChild := s.next child,
                      LastChild :=
                        if s.next child = none then none
                        else s.LastChild }) ∧
    (∀ L1 p L2, L = L1 ++ p :: child :: L2 →
      s.next p = some child ∧
        detachChild s child fuel =
          some { FirstChild := s.FirstChild,
                 LastChild :=
                   if s.LastChild = some child then some p
                   else s.LastChild,
                 next := setNext s.next p (s.next child) }) := by
  refine ⟨fun h => detachChild_eq_of_first h, ?_⟩
  rintro L1 p L2 rfl
  refine detachChild_found_spec hWF ?_
  simp only [List.length_append, List.length_cons] at hfuel
  omega

theorem detachChild_algorithm_witness :
    (fun u => if u = 1 then some 2 else if u = 2 then some 3 else none) 1 =
        some 2 ∧
      detachChild
          ⟨some 1, some 3,
            fun u => if u = 1 then some 2 else
              if u = 2 then some 3 else none⟩ 2 3 =
        some ⟨some 1, some 3,
          setNext
            (fun u => if u = 1 then some 2 else
              if u = 2 then some 3 else none) 1 (some 3)⟩ :=
  (detachChild_algorithm
      ⟨some 1, some 3,
        fun u => if u = 1 then some 2 else
          if u = 2 then some 3 else none⟩
      [1, 2, 3] 2 3 ⟨by decide, by decide, by decide⟩ (by decide)).2
    [] 1 [3] rfl

/-- C4: `attachChild` of a child whose successor slot is null appends at
the tail: from an empty record it sets both `FirstChild` and `LastChild`
to the child; otherwise it links the previous last child's successor slot
to the child and updates `LastChild`; the attach order of the abstract
list is preserved. -/
theorem attachChild_appends_at_tail (s : GroupState) (child : TaskId)
    (hslot : s.next child = none) :
    (s.FirstChild = none →
      attachChild s child =
        some { s with FirstChild := some child,
                      LastChild := some child }) ∧
    (∀ l, s.FirstChild ≠ none → s.LastChild = some l →
      attachChild s child =
        some { FirstChild := s.FirstChild, LastChild := some child,
               next := setNext s.next l (some child) }) ∧
    (∀ L, WF s L → child ∉ L → ∀ s1, attachChild s child = some s1 →
      isChildList s1.next s1.FirstChild (L ++ [child]) = true ∧
        s1.LastChild = some child) := by
  refine ⟨fun h => attachChild_eq_of_first_none h,
    fun l hf hl => attachChild_eq_of_first_some hf hl, ?_⟩
  intro L hWF hfresh s1 heq
  obtain ⟨s1', heq', hWF1⟩ := attachChild_WF hWF hfresh hslot
  rw [heq] at heq'
  cases Option.some_inj.mp heq'
  exact ⟨hWF1.1, by rw [hWF1.2.1, List.getLast?_concat]⟩

theorem attachChild_appends_at_tail_witness :
    attachChild ⟨none, none, fun _ => none⟩ 5 =
        some ⟨some 5, some 5, fun _ => none⟩ ∧
      attachChild ⟨some 1, some 1, fun _ => none⟩ 2 =
        some ⟨some 1, some 2, setNext (fun _ => none) 1 (some 2)⟩ :=
  ⟨(attachChild_appends_at_tail ⟨none, none, fun _ => none⟩ 5 rfl).1 rfl,
    (attachChild_appends_at_tail ⟨some 1, some 1, fun _ => none⟩ 2
        rfl).2.1 1 (by simp) rfl⟩

/-- C6: `detachChild` of a (non-null) child not present in a well-formed
record's list scans to the end and returns with the whole state — record
fields and every successor slot — unchanged. -/
theorem detachChild_absent_noop (s : GroupState) (L : List TaskId)
    (child : TaskId) (fuel : Nat) (hWF : WF s L) (hnm : child ∉ L)
    (hfuel : L.length ≤ fuel) :
    detachChild s child fuel = some s := by
  obtain ⟨hcl, hlast, hnd⟩ := hWF
  have hf : s.FirstChild ≠ some child := by
    cases L with
    | nil =>
      rw [isChildList_nil_iff] at hcl
      simp [hcl]
    | cons a rest =>
      obtain ⟨ha, -⟩ := isChildList_cons_iff.mp hcl
      rw [ha]
      intro e
      exact hnm (by simp [← Option.some_inj.mp e])
  have hscan :=
    (@detachScan_not_mem s.next child L s.FirstChild fuel hcl hnm).2 hfuel
  exact detachChild_eq_of_scan_end hf hscan

theorem detachChild_absent_noop_witness :
    detachChild ⟨some 1, some 2, fun u => if u = 1 then some 2 else none⟩
        7 2 =
      some ⟨some 1, some 2, fun u => if u = 1 then some 2 else none⟩ :=
  detachChild_absent_noop
    ⟨some 1, some 2, fun u => if u = 1 then some 2 else none⟩ [1, 2] 7 2
    ⟨by decide, by decide, by decide⟩ (by decide) (by decide)

theorem exists_middle_decomp {s : GroupState} {L : List TaskId}
    {c : TaskId} (hcl : isChildList s.next s.FirstChild L = true)
    (hf : s.FirstChild ≠ some c) (hm : c ∈ L) :
    ∃ L1 p L2, L = L1 ++ p :: c :: L2 := by
  obtain ⟨s0, t0, rfl⟩ := List.append_of_mem hm
  rcases s0.eq_nil_or_concat with rfl | ⟨L1, p, hcc⟩
  · obtain ⟨ha, -⟩ := isChildList_cons_iff.mp hcl
    exact absurd ha hf
  · exact ⟨L1, p, t0,
      by rw [hcc, List.concat_eq_append, List.append_assoc,
        List.singleton_append]⟩

/-- C10: `attachChild` writes only the previous last child's successor
slot (no slot at all from the empty record) and never the attached
child's own slot; `detachChild` never writes the detached child's own
slot, which afterwards still holds its former successor. -/
theorem attach_detach_frame (s : GroupState) (child : TaskId) :
    (s.FirstChild = none → ∀ s1, attachChild s child = some s1 →
      s1.next = s.next) ∧
    (∀ l, s.FirstChild ≠ none → s.LastChild = some l →
      ∀ s1, attachChild s child = some s1 →
        (∀ u, u ≠ l → s1.next u = s.next u) ∧
          (child ≠ l → s1.next child = s.next child)) ∧
    (∀ L fuel s1, WF s L → detachChild s child fuel = some s1 →
      s1.next child = s.next child) := by
  refine ⟨?_, ?_, ?_⟩
  · intro h s1 heq
    rw [attachChild_eq_of_first_none h] at heq
    cases Option.some_inj.mp heq
    rfl
  · intro l hfn hl s1 heq
    rw [attachChild_eq_of_first_some hfn hl] at heq
    cases Option.some_inj.mp heq
    constructor
    · intro u hu
      simp [setNext, hu]
    · intro hc
      simp [setNext, hc]
  · intro L fuel s1 hWF heq
    obtain ⟨hcl, hlast, hnd⟩ := hWF
    by_cases hf : s.FirstChild = some child
    · rw [detachChild_eq_of_first hf] at heq
      cases Option.some_inj.mp heq
      rfl
    · by_cases hm : child ∈ L
      · obtain ⟨L1, p, L2, rfl⟩ := exists_middle_decomp hcl hf hm
        rcases (@detachScan_found s.next child p L2 L1 s.FirstChild fuel
            hcl hnd).1 with hscan | hscan
        · rw [detachChild] at heq
          simp [hf, hscan] at heq
        · rw [detachChild_eq_of_scan_found hf hscan] at heq
          cases Option.some_inj.mp heq
          have hpc := (nodup_middle_facts hnd).1
          simp [setNext, Ne.symm hpc]
      · rcases (@detachScan_not_mem s.next child L s.FirstChild fuel hcl
            hm).1 with hscan | hscan
        · rw [detachChild] at heq
          simp [hf, hscan] at heq
        · rw [detachChild_eq_of_scan_end hf hscan] at heq
          cases Option.some_inj.mp heq
          rfl

theorem attach_detach_frame_witness :
    setNext (fun _ => none) 1 (some 2) 5 = none ∧
      setNext (fun u => if u = 1 then some 2 else none) 1 none 2 = none :=
  ⟨((attach_detach_frame ⟨some 1, some 1, fun _ => none⟩ 2).2.1 1
        (by simp) rfl ⟨some 1, some 2, setNext (fun _ => none) 1 (some 2)⟩
        rfl).1 5 (by decide),
    (attach_detach_frame
        ⟨some 1, some 2, fun u => if u = 1 then some 2 else none⟩ 2).2.2
      [1, 2] 2
      ⟨some 1, some 1,
        setNext (fun u => if u = 1 then some 2 else none) 1 none⟩
      ⟨by decide, by decide, by decide⟩ rfl⟩

/-- C2: `performEscalationAction` dispatches on the stored dependency
kind: waiting-on-continuation and waiting-on-task-group perform no
action; waiting-on-task escalates the stored task with the new priority;
waiting-on-actor escalates the stored actor with the new priority,
passing the currently-waiting task as context. -/
theorem performEscalationAction_dispatch (task newPriority : Nat) :
    (∀ c, performEscalationAction (Dependency.waitingOnContinuation c)
        task newPriority = []) ∧
      (∀ g, performEscalationAction (Dependency.waitingOnTaskGroup g)
        task newPriority = []) ∧
      (∀ t, performEscalationAction (Dependency.waitingOnTask t)
        task newPriority = [ExternalCall.taskEscalate t newPriority]) ∧
      (∀ a, performEscalationAction (Dependency.waitingOnActor a)
        task newPriority =
          [ExternalCall.actorEscalate a task newPriority]) :=
  ⟨fun _ => rfl, fun _ => rfl, fun _ => rfl, fun _ => rfl⟩

/-- C5, counterexample: the one-argument `ChildTaskStatusRecord`
constructor succeeds on a child with a group-child fragment — it performs
no check at all, refuting "fails fast for every constructor". -/
theorem oneArg_childTaskRecord_no_check :
    mkChildTaskRecord (fun _ => true) 0 =
      some { kind := TaskStatusRecordKind.ChildTask, FirstChild := 0 } :=
  rfl

/-- C5, amended: only the two-argument (kind-taking) constructor of
`ChildTaskStatusRecord` checks the group-membership precondition and
fails fast on a group-member child; the one-argument constructor performs
no such check and always succeeds. -/
theorem childTaskRecord_assert_only_in_kind_ctor
    (hg : TaskId → Bool) (child : TaskId) (kind : TaskStatusRecordKind)
    (h : hg child = true) :
    mkChildTaskRecordWithKind hg child kind = none ∧
      mkChildTaskRecord hg child =
        some { kind := TaskStatusRecordKind.ChildTask,
               FirstChild := child } := by
  refine ⟨?_, rfl⟩
  simp [mkChildTaskRecordWithKind, h]

theorem childTaskRecord_assert_only_in_kind_ctor_witness :
    mkChildTaskRecordWithKind (fun _ => true) 0
        TaskStatusRecordKind.ChildTask = none ∧
      mkChildTaskRecord (fun _ => true) 0 =
        some { kind := TaskStatusRecordKind.ChildTask, FirstChild := 0 } :=
  childTaskRecord_assert_only_in_kind_ctor (fun _ => true) 0
    TaskStatusRecordKind.ChildTask rfl

/-- C8: constructing a waiting-on-task dependency record performs exactly
one retain of the referenced task; the other three constructors perform
no reference-count traffic; unregistering the waiting-on-task record
releases the reference. -/
theorem dependencyRecord_retain_discipline (t c g a : Nat) :
    (mkDependencyRecordTask t).2 = [ExternalCall.retain t] ∧
      (mkDependencyRecordContinuation c).2 = [] ∧
      (mkDependencyRecordTaskGroup g).2 = [] ∧
      (mkDependencyRecordActor a).2 = [] ∧
      unregisterDependencyRecord (mkDependencyRecordTask t).1 =
        [ExternalCall.release t] :=
  ⟨rfl, rfl, rfl, rfl, rfl⟩

/-- C9: `resetParent` is a pure link update: afterwards `getParent`
returns the new parent, `getKind` still returns the construction-time
kind, and neither `Flags` nor the variant payload changes. -/
theorem resetParent_pure_link_update (r : StatusRecordObj)
    (p : Option Nat) :
    getParent (resetParent r p) = p ∧
      getKind (resetParent r p) = getKind r ∧
      (resetParent r p).Flags = r.Flags ∧
      (resetParent r p).payload = r.payload :=
  ⟨rfl, rfl, rfl, rfl⟩

end TaskStatus
